import Mathlib

/-!
Verification of the WebDAV storage driver (`src/index.ts`, `src/webdav.ts`).

Strings from the TypeScript source are modelled as `List Char` (`Str`),
byte buffers as `List Nat` (`Bytes`).  Backend responses that may or may
not be wrapped in a `{ data: ... }` envelope are modelled by `Response`.
The remote store is a partial map from absolute remote paths to byte
contents.  Asynchronous methods are modelled as pure functions over this
state; backend failures are modelled with `Except`.
-/

namespace WebDAVDriver

abbrev Str := List Char
abbrev Bytes := List Nat

/-- Strip a single trailing slash: `root.replace(/\/$/, '')`. -/
def stripOneTrailing (s : Str) : Str :=
  if s.getLast? = some '/' then s.dropLast else s

/-- Strip a single leading slash: `filepath.replace(/^\//, '')`. -/
def stripOneLeading (s : Str) : Str :=
  if s.head? = some '/' then s.tail else s

/-- Strip all leading slashes: `.replace(/^\/+/, '')`. -/
def stripLeadingSlashes (s : Str) : Str :=
  s.dropWhile (fun c => c = '/')

/-- The method `fullPath` from `src/index.ts` lines 26-28:
    the root with one trailing slash removed, a slash, and
    the filepath with one leading slash removed. -/
def fullPath (root filepath : Str) : Str :=
  stripOneTrailing root ++ ['/'] ++ stripOneLeading filepath

/-- A backend response: either wrapped in a `{ data: ... }` envelope or plain. -/
inductive Response (α : Type) : Type
  | envelope (data : α) : Response α
  | plain (payload : α) : Response α
deriving DecidableEq, Repr

/-- The tolerant unwrap used throughout the driver:
    if the response has a `data` field use it, otherwise use the response. -/
def unwrap {α : Type} : Response α → α
  | .envelope d => d
  | .plain p => p

/-- Which envelope shape a backend chooses for a given call. -/
inductive Wrap : Type
  | env
  | pln
deriving DecidableEq, Repr

/-- Build the response the backend sends for payload `x` under choice `w`. -/
def wrapWith {α : Type} (w : Wrap) (x : α) : Response α :=
  match w with
  | .env => Response.envelope x
  | .pln => Response.plain x

/-- The raw content shapes `getFileContents(..., { format: 'binary' })` may
    produce: a string, an `ArrayBuffer`, or a `Buffer`; each carries the
    object's bytes. -/
inductive RawContent : Type
  | str (bytes : Bytes) : RawContent
  | arrayBuffer (bytes : Bytes) : RawContent
  | buffer (bytes : Bytes) : RawContent
deriving DecidableEq, Repr

/-- Which raw shape the backend chooses to deliver file contents in. -/
inductive Form : Type
  | str
  | arrayBuffer
  | buffer
deriving DecidableEq, Repr

/-- Encode bytes in the backend's chosen raw shape. -/
def encode (f : Form) (bs : Bytes) : RawContent :=
  match f with
  | .str => RawContent.str bs
  | .arrayBuffer => RawContent.arrayBuffer bs
  | .buffer => RawContent.buffer bs

/-- The normalization chain of `writeChunk` (`src/index.ts` lines 122-130):
    `Buffer.from(string)`, `Buffer.from(new Uint8Array(arrayBuffer))`, or the
    buffer itself — in every case the bytes of the payload. -/
def toBuffer : RawContent → Bytes
  | .str bs => bs
  | .arrayBuffer bs => bs
  | .buffer bs => bs

/-- The remote store: a partial map from absolute remote path to contents. -/
structure Store : Type where
  files : Str → Option Bytes

/-- Backend `putFileContents` : replace (or create) the object at `path`. -/
def Store.put (st : Store) (path : Str) (content : Bytes) : Store :=
  ⟨fun p => if p = path then some content else st.files p⟩

/-- The method `writeChunk` from `src/index.ts` lines 109-145, as a state transformer.
    The backend's presentation of the existing object (envelope choice `w`,
    raw shape `fm`) is a parameter; `chunks` is the list of fragments the
    incoming content stream yields, in arrival order.  `getFileContents`
    fails when the object is missing, which propagates as an error. -/
def writeChunk (w : Wrap) (fm : Form) (st : Store) (root filepath : Str)
    (chunks : List Bytes) (offset : Nat) : Except Unit (Store × Nat) :=
  let remotePath := fullPath root filepath
  match st.files remotePath with
  | none => Except.error ()
  | some content =>
      let existing : Response RawContent := wrapWith w (encode fm content)
      let existingRaw := unwrap existing
      let existingBuffer := toBuffer existingRaw
      let newContent := existingBuffer.take offset ++ chunks.flatten
      Except.ok (st.put remotePath newContent, newContent.length)

/-- The method `createChunkedUpload` from `src/index.ts` lines 102-107: write an empty
    object at the path (via `write`, hence `fullPath`), return the context
    unchanged. -/
def createChunkedUpload {Ctx : Type} (st : Store) (root filepath : Str)
    (context : Ctx) : Store × Ctx :=
  (st.put (fullPath root filepath) [], context)

/-- The shape of a backend stat payload: optional size, optional lastmod
    (timestamps modelled as `Nat`). -/
structure StatPayload : Type where
  size : Option Nat
  lastmod : Option Nat
deriving DecidableEq, Repr

/-- The result `stat` returns: `{ size, modified }`. -/
structure FileMetadata : Type where
  size : Nat
  modified : Nat
deriving DecidableEq, Repr

/-- The method `stat` from `src/index.ts` lines 44-55, applied to the backend's
    response: unwrap the envelope tolerantly, default `size` to 0 and
    `modified` to the current time `now` when omitted
    (`new Date(lastmod)` is modelled as the timestamp itself). -/
def statResult (now : Nat) (resp : Response StatPayload) : FileMetadata :=
  let fileStat := unwrap resp
  { size := fileStat.size.getD 0
    modified := match fileStat.lastmod with
      | some t => t
      | none => now }

/-- Failure modes of a backend `stat` call. -/
inductive BackendError : Type
  | notFound
  | network
  | permission
deriving DecidableEq, Repr

/-- The method `exists` from `src/index.ts` lines 57-65: try `client.stat(fullPath f)`,
    return `true` on success; any thrown error yields `false`. -/
def existsImpl (statCall : Str → Except BackendError (Response StatPayload))
    (root filepath : Str) : Bool :=
  match statCall (fullPath root filepath) with
  | .ok _ => true
  | .error _ => false

/-- A faithful backend's stat over the store: reports the real stored
    length as the size, with envelope choice `w` and lastmod `lm`. -/
def statOfStore (st : Store) (w : Wrap) (lm : Option Nat) (now : Nat)
    (path : Str) : Option FileMetadata :=
  (st.files path).map (fun c => statResult now (wrapWith w ⟨some c.length, lm⟩))

/-! ### Node `path` model (posix)

`list` and the denormalization direction of the path round-trip use
`relative` from `node:path`.  On posix, `relative(from, to)` resolves both
arguments against the process working directory (`path.resolve`), which
normalizes `.`/`..`/empty segments, then removes the common leading
segments and joins `..` steps with the remaining target segments.
Modelled here segment-wise over `List Char` strings. -/

/-- Split a string at every `/` (keeping empty pieces), like
    `"a//b".split('/') = ["a", "", "b"]`. -/
def splitSlash : Str → List Str
  | [] => [[]]
  | c :: t =>
      if c = '/' then [] :: splitSlash t
      else (c :: (splitSlash t).headI) :: (splitSlash t).tail

/-- One step of posix path normalization over an accumulated segment list:
    empty and `.` segments vanish, `..` pops the last segment (at the root
    it is dropped, since the path is absolute), others are appended. -/
def normStep (acc : List Str) (s : Str) : List Str :=
  if s = [] ∨ s = ['.'] then acc
  else if s = ['.', '.'] then acc.dropLast
  else acc ++ [s]

/-- Normalize an absolute path's raw segment list. -/
def normAbsSegs (segs : List Str) : List Str :=
  segs.foldl normStep []

/-- Node's `path.resolve(p)` as a segment list: absolute paths are normalized
    directly, relative paths are first joined onto the working directory
    `cwd`. -/
def resolveSegs (cwd p : Str) : List Str :=
  if p.head? = some '/' then normAbsSegs (splitSlash p)
  else normAbsSegs (splitSlash (cwd ++ ['/'] ++ p))

/-- Length of the common leading run of two segment lists. -/
def commonLen : List Str → List Str → Nat
  | a :: as_, b :: bs => if a = b then commonLen as_ bs + 1 else 0
  | _, _ => 0

/-- A segment is kept by normalization iff it is neither empty nor `.`. -/
def keepSeg (s : Str) : Bool := decide (s ≠ [] ∧ s ≠ ['.'])

/-- A clean path segment: nonempty, not `.`, not `..`, and slash-free. -/
abbrev cleanSeg (s : Str) : Prop :=
  s ≠ [] ∧ s ≠ ['.'] ∧ s ≠ ['.', '.'] ∧ '/' ∉ s

/-- Join segments with `/`. -/
def joinSegs (segs : List Str) : Str :=
  (segs.intersperse ['/']).flatten

/-- Node's `relative(from_, to_)` from `node:path` (posix): resolve both against
    `cwd`, drop the common leading segments, then one `..` per remaining
    source segment followed by the remaining target segments. -/
def nodeRelative (cwd from_ to_ : Str) : Str :=
  let fs := resolveSegs cwd from_
  let ts := resolveSegs cwd to_
  let k := commonLen fs ts
  joinSegs (List.replicate (fs.length - k) ['.', '.'] ++ ts.drop k)

/-- The conversion `list` applies to each backend filename
    (`src/index.ts` lines 93-94): `relative(root, filename)` followed by
    stripping all leading slashes. -/
def denormalize (cwd root abs_ : Str) : Str :=
  stripLeadingSlashes (nodeRelative cwd root abs_)

/-! ### `read`, `list`, and the remaining pass-through operations -/

/-- The `options.range` shape of `ReadOptions`: a start and an optional
    end (`stop` here, `end` in the source). -/
structure RangeOpt : Type where
  start : Nat
  stop : Option Nat
deriving DecidableEq, Repr

/-- The backend request `read` issues: a read stream with or without
    extra headers (the only header ever set is `Range`). -/
inductive ReadRequest : Type
  | withRangeHeader (path : Str) (header : Str) : ReadRequest
  | plain (path : Str) : ReadRequest
deriving DecidableEq, Repr

/-- Decimal rendering of a number, as JS template interpolation does. -/
def natChars (n : Nat) : Str := (Nat.repr n).toList

/-- The method `read` from `src/index.ts` lines 30-42: with a range option, request
    the stream with header `Range: bytes=start-end` where a missing `end`
    interpolates as the empty string; without options, request the plain
    stream. -/
def read (root filepath : Str) (options : Option RangeOpt) : ReadRequest :=
  let remotePath := fullPath root filepath
  match options with
  | some r =>
      ReadRequest.withRangeHeader remotePath
        ("bytes=".toList ++ natChars r.start ++ ['-'] ++
          (match r.stop with
           | some e => natChars e
           | none => []))
  | none => ReadRequest.plain remotePath

/-- Backend directory-entry type tag. -/
inductive EntryType : Type
  | file
  | directory
deriving DecidableEq, Repr

/-- An entry of a backend directory listing. -/
structure DirEntry : Type where
  type : EntryType
  filename : Str
deriving DecidableEq, Repr

/-- The method `list` from `src/index.ts` lines 84-97, applied to the backend's
    (possibly enveloped) deep-listing response: unwrap, keep `file`
    entries (`filename` is a string by construction here), and yield each
    filename converted to a root-relative path. -/
def list (cwd root : Str) (res : Response (List DirEntry)) : List Str :=
  let contents := unwrap res
  contents.filterMap (fun item =>
    if item.type = EntryType.file then
      some (denormalize cwd root item.filename)
    else none)

/-- The remote path `list` fetches the deep listing for
    (`src/index.ts` lines 85-86). -/
def listRequestPath (root pfx : Str) : Str := fullPath root pfx

/-- The method `move` (`src/index.ts` lines 67-69): the backend `moveFile` call's
    source and destination paths. -/
def move (root src dest : Str) : Str × Str :=
  (fullPath root src, fullPath root dest)

/-- The method `copy` (`src/index.ts` lines 71-73): the backend `copyFile` call's
    source and destination paths. -/
def copy (root src dest : Str) : Str × Str :=
  (fullPath root src, fullPath root dest)

/-- The method `write` (`src/index.ts` lines 75-78): replace the object at the
    normalized path with the stream's full contents. -/
def write (st : Store) (root filepath : Str) (content : Bytes) : Store :=
  st.put (fullPath root filepath) content

/-- The method `delete` (`src/index.ts` lines 80-82): the backend `deleteFile`
    call's path. -/
def deletePath (root filepath : Str) : Str := fullPath root filepath

/-- The full behaviour of `stat` (`src/index.ts` lines 44-55): the backend is
    called on `fullPath` and the response is post-processed by
    `statResult`. -/
def statOp (root filepath : Str) (now : Nat)
    (backend : Str → Response StatPayload) : FileMetadata :=
  statResult now (backend (fullPath root filepath))

end WebDAVDriver

/-! ### The plain (non-TUS) variant, `src/webdav.ts`

A separate line-for-line translation of `src/webdav.ts` lines 14-98: the
same constructor, `fullPath`, `read`, `stat`, `exists`, `move`, `copy`,
`write`, `delete` and `list` bodies, without the chunked-upload methods. -/

namespace WebDAVPlain

open WebDAVDriver (Str Bytes Store Response unwrap StatPayload FileMetadata
  BackendError RangeOpt ReadRequest DirEntry EntryType natChars denormalize)

/-- Trailing-slash strip `root.replace(/\/$/, '')` in `src/webdav.ts` line 27. -/
def stripOneTrailing (s : Str) : Str :=
  if s.getLast? = some '/' then s.dropLast else s

/-- Leading-slash strip `filepath.replace(/^\//, '')` in `src/webdav.ts` line 27. -/
def stripOneLeading (s : Str) : Str :=
  if s.head? = some '/' then s.tail else s

/-- The method `fullPath` from `src/webdav.ts` lines 26-28. -/
def fullPath (root filepath : Str) : Str :=
  stripOneTrailing root ++ ['/'] ++ stripOneLeading filepath

/-- The method `read` from `src/webdav.ts` lines 30-42. -/
def read (root filepath : Str) (options : Option RangeOpt) : ReadRequest :=
  let remotePath := fullPath root filepath
  match options with
  | some r =>
      ReadRequest.withRangeHeader remotePath
        ("bytes=".toList ++ natChars r.start ++ ['-'] ++
          (match r.stop with
           | some e => natChars e
           | none => []))
  | none => ReadRequest.plain remotePath

/-- The method `stat` from `src/webdav.ts` lines 44-55. -/
def statResult (now : Nat) (resp : Response StatPayload) : FileMetadata :=
  let fileStat := unwrap resp
  { size := fileStat.size.getD 0
    modified := match fileStat.lastmod with
      | some t => t
      | none => now }

/-- The full behaviour of `stat` from `src/webdav.ts` lines 44-55. -/
def statOp (root filepath : Str) (now : Nat)
    (backend : Str → Response StatPayload) : FileMetadata :=
  statResult now (backend (fullPath root filepath))

/-- The method `exists` from `src/webdav.ts` lines 57-65. -/
def existsImpl (statCall : Str → Except BackendError (Response StatPayload))
    (root filepath : Str) : Bool :=
  match statCall (fullPath root filepath) with
  | .ok _ => true
  | .error _ => false

/-- The method `move` from `src/webdav.ts` lines 67-69. -/
def move (root src dest : Str) : Str × Str :=
  (fullPath root src, fullPath root dest)

/-- The method `copy` from `src/webdav.ts` lines 71-73. -/
def copy (root src dest : Str) : Str × Str :=
  (fullPath root src, fullPath root dest)

/-- The method `write` from `src/webdav.ts` lines 75-78. -/
def write (st : Store) (root filepath : Str) (content : Bytes) : Store :=
  st.put (fullPath root filepath) content

/-- The method `delete` from `src/webdav.ts` lines 80-82. -/
def deletePath (root filepath : Str) : Str := fullPath root filepath

/-- The method `list` from `src/webdav.ts` lines 84-97. -/
def list (cwd root : Str) (res : Response (List DirEntry)) : List Str :=
  let contents := unwrap res
  contents.filterMap (fun item =>
    if item.type = EntryType.file then
      some (denormalize cwd root item.filename)
    else none)

end WebDAVPlain

/-! ## Helper lemmas -/

namespace WebDAVDriver

@[simp] theorem Store.put_same (st : Store) (path : Str) (content : Bytes) :
    (st.put path content).files path = some content := by
  simp [Store.put]

@[simp] theorem unwrap_wrapWith {α : Type} (w : Wrap) (x : α) :
    unwrap (wrapWith w x) = x := by
  cases w <;> rfl

@[simp] theorem toBuffer_encode (fm : Form) (bs : Bytes) :
    toBuffer (encode fm bs) = bs := by
  cases fm <;> rfl

@[simp] theorem splitSlash_nil : splitSlash [] = [[]] := rfl

@[simp] theorem splitSlash_slash (t : Str) :
    splitSlash ('/' :: t) = [] :: splitSlash t := by
  simp [splitSlash]

theorem splitSlash_cons (c : Char) (t : Str) (h : c ≠ '/') :
    splitSlash (c :: t) = (c :: (splitSlash t).headI) :: (splitSlash t).tail := by
  simp [splitSlash, h]

theorem splitSlash_ne_nil (s : Str) : splitSlash s ≠ [] := by
  induction s with
  | nil => simp
  | cons c t ih =>
      by_cases hc : c = '/'
      · subst hc; simp
      · simp [splitSlash_cons c t hc]

theorem splitSlash_append (a b : Str) :
    splitSlash (a ++ ['/'] ++ b) = splitSlash a ++ splitSlash b := by
  induction a with
  | nil => simp
  | cons c t ih =>
      by_cases hc : c = '/'
      · subst hc
        rw [show ('/' :: t : Str) ++ ['/'] ++ b = '/' :: (t ++ ['/'] ++ b) by simp]
        rw [splitSlash_slash, ih]
        simp
      · obtain ⟨g, gs, hg⟩ := List.exists_cons_of_ne_nil (splitSlash_ne_nil t)
        simp only [List.cons_append, splitSlash_cons c _ hc, splitSlash_cons c t hc, hg, ih]
        simp [hg]

theorem splitSlash_no_slash (s : Str) (h : '/' ∉ s) : splitSlash s = [s] := by
  induction s with
  | nil => rfl
  | cons c t ih =>
      have hc : c ≠ '/' := fun hc => h (hc ▸ List.mem_cons_self c t)
      have ht : '/' ∉ t := fun hm => h (List.mem_cons_of_mem c hm)
      simp [splitSlash_cons c t hc, ih ht]

theorem splitSlash_replicate (j : Nat) (s : Str) :
    splitSlash (List.replicate j '/' ++ s) =
      List.replicate j ([] : Str) ++ splitSlash s := by
  induction j with
  | zero => simp
  | succ n ih => simp [List.replicate_succ, ih]

@[simp] theorem normStep_nil (acc : List Str) : normStep acc [] = acc := by
  simp [normStep]

theorem normAbsSegs_append (A B : List Str) :
    normAbsSegs (A ++ B) = B.foldl normStep (normAbsSegs A) := by
  simp [normAbsSegs, List.foldl_append]

theorem foldl_normStep_no_dotdot (B : List Str) (acc : List Str)
    (h : ∀ s ∈ B, s ≠ ['.', '.']) :
    B.foldl normStep acc = acc ++ B.filter keepSeg := by
  induction B generalizing acc with
  | nil => simp
  | cons s B' ih =>
      have hs : s ≠ ['.', '.'] := h s (List.mem_cons_self s B')
      have hB' : ∀ x ∈ B', x ≠ ['.', '.'] := fun x hx => h x (List.mem_cons_of_mem s hx)
      by_cases hk : s = [] ∨ s = ['.']
      · have hstep : normStep acc s = acc := by simp [normStep, hk]
        have hfil : keepSeg s = false := by
          simp [keepSeg]
          tauto
        simp only [List.foldl_cons, hstep, List.filter_cons, hfil, ih _ hB']
        simp
      · have hstep : normStep acc s = acc ++ [s] := by
          simp only [normStep, if_neg hk, if_neg hs]
        have hfil : keepSeg s = true := by
          simp [keepSeg]
          tauto
        simp only [List.foldl_cons, hstep, List.filter_cons, hfil, ih _ hB']
        simp

theorem normAbsSegs_concat_empty (X : List Str) :
    normAbsSegs (X ++ [[]]) = normAbsSegs X := by
  simp [normAbsSegs_append]

@[simp] theorem joinSegs_nil : joinSegs [] = [] := rfl

@[simp] theorem joinSegs_singleton (s : Str) : joinSegs [s] = s := by
  simp [joinSegs]

theorem joinSegs_cons_cons (s r : Str) (rest : List Str) :
    joinSegs (s :: r :: rest) = s ++ ['/'] ++ joinSegs (r :: rest) := by
  simp [joinSegs, List.intersperse]

theorem splitSlash_joinSegs (psegs : List Str) (hne : psegs ≠ [])
    (h : ∀ s ∈ psegs, '/' ∉ s) : splitSlash (joinSegs psegs) = psegs := by
  induction psegs with
  | nil => exact absurd rfl hne
  | cons s rest ih =>
      cases rest with
      | nil =>
          simp only [joinSegs_singleton]
          exact splitSlash_no_slash s (h s (List.mem_cons_self s []))
      | cons r rest' =>
          rw [joinSegs_cons_cons, splitSlash_append]
          rw [splitSlash_no_slash s (h s (List.mem_cons_self s _))]
          rw [ih (List.cons_ne_nil r rest') (fun x hx => h x (List.mem_cons_of_mem s hx))]
          rfl

/-- Appending the split of `replicate j '/' ++ joinSegs psegs` to any raw
    segment list changes its normalization by exactly appending `psegs`,
    when every segment of `psegs` is clean. -/
theorem normAbsSegs_append_clean (X : List Str) (j : Nat) (psegs : List Str)
    (hclean : ∀ s ∈ psegs, cleanSeg s) :
    normAbsSegs (X ++ splitSlash (List.replicate j '/' ++ joinSegs psegs)) =
      normAbsSegs X ++ psegs := by
  rw [splitSlash_replicate]
  by_cases hne : psegs = []
  · subst hne
    simp only [joinSegs_nil, splitSlash_nil]
    rw [normAbsSegs_append, foldl_normStep_no_dotdot]
    · have h1 : List.filter keepSeg (List.replicate j ([] : Str) ++ [[]]) = [] := by
        simp [keepSeg, List.filter_append]
      rw [h1]
    · intro s hs
      rcases List.mem_append.1 hs with hs | hs
      · rw [List.eq_of_mem_replicate hs]
        simp
      · simp only [List.mem_singleton] at hs
        subst hs
        simp
  · rw [splitSlash_joinSegs psegs hne (fun s hs => (hclean s hs).2.2.2)]
    rw [normAbsSegs_append, foldl_normStep_no_dotdot]
    · rw [List.filter_append]
      have h1 : List.filter keepSeg (List.replicate j ([] : Str)) = [] := by
        simp [keepSeg]
      have h2 : List.filter keepSeg psegs = psegs := by
        rw [List.filter_eq_self]
        intro s hs
        have hc := hclean s hs
        simp [keepSeg, hc.1, hc.2.1]
      rw [h1, h2]
      simp
    · intro s hs
      rcases List.mem_append.1 hs with hs | hs
      · rw [List.eq_of_mem_replicate hs]
        simp
      · exact (hclean s hs).2.2.1

theorem commonLen_self_append (R ps : List Str) :
    commonLen R (R ++ ps) = R.length := by
  induction R with
  | nil =>
      cases ps with
      | nil => rfl
      | cons p ps' => rfl
  | cons a as_ ih => simp [commonLen, ih]

theorem stripOneTrailing_cases (root : Str) :
    root = stripOneTrailing root ∨ root = stripOneTrailing root ++ ['/'] := by
  unfold stripOneTrailing
  by_cases h : root.getLast? = some '/'
  · right
    rw [if_pos h]
    have hne : root ≠ [] := by
      intro hr
      rw [hr] at h
      simp at h
    have := List.dropLast_append_getLast hne
    rw [List.getLast?_eq_getLast root hne] at h
    have hlast : root.getLast hne = '/' := by
      injection h
    rw [hlast] at this
    exact this.symm
  · left
    rw [if_neg h]

theorem stripOneTrailing_head (c : Char) (r : Str) (hc : c ≠ '/') :
    ∃ t, stripOneTrailing (c :: r) = c :: t := by
  unfold stripOneTrailing
  by_cases h : (c :: r).getLast? = some '/'
  · rw [if_pos h]
    cases r with
    | nil =>
        simp at h
        exact absurd h hc
    | cons x r' => exact ⟨(x :: r').dropLast, rfl⟩
  · rw [if_neg h]
    exact ⟨r, rfl⟩

theorem stripOneTrailing_slash_head (r : Str) :
    stripOneTrailing ('/' :: r) = [] ∨
      ∃ t, stripOneTrailing ('/' :: r) = '/' :: t := by
  unfold stripOneTrailing
  by_cases h : ('/' :: r).getLast? = some '/'
  · rw [if_pos h]
    cases r with
    | nil => exact Or.inl rfl
    | cons x r' => exact Or.inr ⟨(x :: r').dropLast, rfl⟩
  · rw [if_neg h]
    exact Or.inr ⟨r, rfl⟩

theorem resolveSegs_of_abs (cwd p : Str) (h : p.head? = some '/') :
    resolveSegs cwd p = normAbsSegs (splitSlash p) := by
  rw [resolveSegs, if_pos h]

theorem resolveSegs_of_rel (cwd p : Str) (h : p.head? ≠ some '/') :
    resolveSegs cwd p = normAbsSegs (splitSlash (cwd ++ ['/'] ++ p)) := by
  rw [resolveSegs, if_neg h]

/-- Resolving `fullPath`'s output appends exactly the clean segments of the
    filepath to the resolution of the root, for every working directory and
    every nonempty root. -/
theorem resolve_fullPath (cwd root : Str) (hroot : root ≠ []) (j : Nat)
    (psegs : List Str) (hclean : ∀ s ∈ psegs, cleanSeg s) :
    resolveSegs cwd
        (stripOneTrailing root ++ ['/'] ++ (List.replicate j '/' ++ joinSegs psegs)) =
      resolveSegs cwd root ++ psegs := by
  obtain ⟨c, r, hr⟩ := List.exists_cons_of_ne_nil hroot
  subst hr
  by_cases hc : c = '/'
  · subst hc
    -- absolute root: both sides resolve without the working directory
    have hfullabs :
        (stripOneTrailing ('/' :: r) ++ ['/'] ++
          (List.replicate j '/' ++ joinSegs psegs)).head? = some '/' := by
      rcases stripOneTrailing_slash_head r with h0 | ⟨t, ht⟩
      · rw [h0]
        rfl
      · rw [ht]
        rfl
    rw [resolveSegs_of_abs _ _ hfullabs, resolveSegs_of_abs cwd ('/' :: r) rfl]
    rw [splitSlash_append]
    rw [normAbsSegs_append_clean (splitSlash (stripOneTrailing ('/' :: r))) j psegs hclean]
    rcases stripOneTrailing_cases ('/' :: r) with hcase | hcase
    · rw [← hcase]
    · conv_rhs => rw [hcase]
      rw [show stripOneTrailing ('/' :: r) ++ ['/'] =
            stripOneTrailing ('/' :: r) ++ ['/'] ++ ([] : Str) by simp]
      rw [splitSlash_append, splitSlash_nil, normAbsSegs_concat_empty]
  · -- relative root: both sides resolve against the working directory
    obtain ⟨t, ht⟩ := stripOneTrailing_head c r hc
    have hfullrel :
        (stripOneTrailing (c :: r) ++ ['/'] ++
          (List.replicate j '/' ++ joinSegs psegs)).head? ≠ some '/' := by
      rw [ht]
      simp [hc]
    have hrootrel : ((c : Char) :: r).head? ≠ some '/' := by simp [hc]
    rw [resolveSegs_of_rel _ _ hfullrel, resolveSegs_of_rel _ _ hrootrel]
    rw [splitSlash_append cwd, splitSlash_append cwd]
    rw [show stripOneTrailing (c :: r) ++ ['/'] ++
          (List.replicate j '/' ++ joinSegs psegs) =
          stripOneTrailing (c :: r) ++ ['/'] ++
            (List.replicate j '/' ++ joinSegs psegs) from rfl]
    rw [splitSlash_append (stripOneTrailing (c :: r))]
    rw [← List.append_assoc]
    rw [normAbsSegs_append_clean
          (splitSlash cwd ++ splitSlash (stripOneTrailing (c :: r))) j psegs hclean]
    rcases stripOneTrailing_cases (c :: r) with hcase | hcase
    · rw [← hcase]
    · conv_rhs => rw [hcase]
      rw [show stripOneTrailing (c :: r) ++ ['/'] =
            stripOneTrailing (c :: r) ++ ['/'] ++ ([] : Str) by simp]
      rw [splitSlash_append, splitSlash_nil]
      rw [← List.append_assoc, normAbsSegs_concat_empty]

theorem nodeRelative_fullPath (cwd root : Str) (hroot : root ≠ []) (j : Nat)
    (psegs : List Str) (hclean : ∀ s ∈ psegs, cleanSeg s) :
    nodeRelative cwd root
        (stripOneTrailing root ++ ['/'] ++ (List.replicate j '/' ++ joinSegs psegs)) =
      joinSegs psegs := by
  unfold nodeRelative
  simp only [resolve_fullPath cwd root hroot j psegs hclean, commonLen_self_append,
    Nat.sub_self, List.replicate_zero, List.nil_append, List.drop_left]

theorem joinSegs_head_ne_slash (psegs : List Str)
    (hclean : ∀ s ∈ psegs, cleanSeg s) : (joinSegs psegs).head? ≠ some '/' := by
  cases psegs with
  | nil => simp
  | cons s rest =>
      have hs := hclean s (List.mem_cons_self s rest)
      obtain ⟨c, s', hcs⟩ := List.exists_cons_of_ne_nil hs.1
      have hc : c ≠ '/' := by
        intro h
        exact hs.2.2.2 (by rw [hcs, h]; exact List.mem_cons_self _ _)
      cases rest with
      | nil =>
          rw [joinSegs_singleton, hcs]
          simp [hc]
      | cons r rest' =>
          rw [joinSegs_cons_cons, hcs]
          simp [hc]

theorem stripLeadingSlashes_replicate (k : Nat) (J : Str) :
    stripLeadingSlashes (List.replicate k '/' ++ J) = stripLeadingSlashes J := by
  induction k with
  | zero => simp
  | succ n ih =>
      rw [List.replicate_succ, List.cons_append]
      rw [show stripLeadingSlashes ('/' :: (List.replicate n '/' ++ J)) =
            stripLeadingSlashes (List.replicate n '/' ++ J) by
          simp [stripLeadingSlashes]]
      exact ih

theorem stripLeadingSlashes_of_head_ne (J : Str) (hJ : J.head? ≠ some '/') :
    stripLeadingSlashes J = J := by
  cases J with
  | nil => rfl
  | cons c t =>
      have hc : c ≠ '/' := by simpa using hJ
      simp [stripLeadingSlashes, hc]

theorem stripOneLeading_shape (k : Nat) (J : Str) (hJ : J.head? ≠ some '/') :
    ∃ j, stripOneLeading (List.replicate k '/' ++ J) =
      List.replicate j '/' ++ J := by
  cases k with
  | zero =>
      refine ⟨0, ?_⟩
      simp only [List.replicate_zero, List.nil_append]
      rw [stripOneLeading, if_neg hJ]
  | succ n =>
      refine ⟨n, ?_⟩
      rw [List.replicate_succ, List.cons_append, stripOneLeading]
      rfl

/-! ## Claim theorems -/

/-- C1: for a file whose current remote content is empty, `writeChunk` with
chunk `c1` at offset 0 followed by `writeChunk` with chunk `c2` at offset
`len c1` leaves the remote object's content equal to `c1 ++ c2`, and the
second call returns `len c1 + len c2` (chunks arrive as fragment lists
`chunks1`/`chunks2` whose flattenings are `c1`/`c2`; the backend may choose
any envelope and raw shape on each read). -/
theorem claim_c1_writeChunk_sequential
    (st : Store) (root f : Str) (chunks1 chunks2 : List Bytes)
    (w1 w2 : Wrap) (fm1 fm2 : Form)
    (h : st.files (fullPath root f) = some []) :
    writeChunk w1 fm1 st root f chunks1 0 =
      Except.ok (st.put (fullPath root f) chunks1.flatten, chunks1.flatten.length) ∧
    writeChunk w2 fm2 (st.put (fullPath root f) chunks1.flatten) root f chunks2
        chunks1.flatten.length =
      Except.ok ((st.put (fullPath root f) chunks1.flatten).put (fullPath root f)
          (chunks1.flatten ++ chunks2.flatten),
        chunks1.flatten.length + chunks2.flatten.length) ∧
    ((st.put (fullPath root f) chunks1.flatten).put (fullPath root f)
        (chunks1.flatten ++ chunks2.flatten)).files (fullPath root f) =
      some (chunks1.flatten ++ chunks2.flatten) := by
  refine ⟨?_, ?_, ?_⟩
  · simp [writeChunk, h]
  · simp only [writeChunk, Store.put_same, unwrap_wrapWith, toBuffer_encode,
      List.take_length, List.length_append]
  · simp

/-- Witness for C1: a concrete store holding an empty object, writing
`[1, 2]` then `[3]`. -/
theorem claim_c1_witness :
    (Store.mk (fun _ => some ([] : Bytes))).files (fullPath "/".toList "f".toList) =
      some [] ∧
    writeChunk Wrap.env Form.str (Store.mk (fun _ => some ([] : Bytes)))
        "/".toList "f".toList [[1, 2]] 0 =
      Except.ok ((Store.mk (fun _ => some ([] : Bytes))).put
          (fullPath "/".toList "f".toList) [1, 2], 2) :=
  ⟨rfl,
    (claim_c1_writeChunk_sequential (Store.mk (fun _ => some ([] : Bytes)))
      "/".toList "f".toList [[1, 2]] [[3]] Wrap.env Wrap.pln Form.str Form.buffer
      rfl).1⟩

/-- C2: for an existing object with content of positive length, `writeChunk`
at offset 0 replaces the object's content with exactly the chunk's bytes
(prior content is discarded, not retained) and returns the chunk's length. -/
theorem claim_c2_writeChunk_offset_zero_truncates
    (st : Store) (root f : Str) (content : Bytes) (chunks : List Bytes)
    (w : Wrap) (fm : Form)
    (h : st.files (fullPath root f) = some content) (hN : 0 < content.length) :
    writeChunk w fm st root f chunks 0 =
      Except.ok (st.put (fullPath root f) chunks.flatten, chunks.flatten.length) ∧
    (st.put (fullPath root f) chunks.flatten).files (fullPath root f) =
      some chunks.flatten := by
  constructor
  · simp [writeChunk, h]
  · simp

/-- Witness for C2: an object holding `[7, 8, 9]` overwritten at offset 0
by `[1]`. -/
theorem claim_c2_witness :
    (Store.mk (fun _ => some ([7, 8, 9] : Bytes))).files
        (fullPath "/".toList "f".toList) = some [7, 8, 9] ∧
    0 < ([7, 8, 9] : Bytes).length ∧
    writeChunk Wrap.pln Form.buffer (Store.mk (fun _ => some ([7, 8, 9] : Bytes)))
        "/".toList "f".toList [[1]] 0 =
      Except.ok ((Store.mk (fun _ => some ([7, 8, 9] : Bytes))).put
          (fullPath "/".toList "f".toList) [1], 1) :=
  ⟨rfl, by decide,
    (claim_c2_writeChunk_offset_zero_truncates
      (Store.mk (fun _ => some ([7, 8, 9] : Bytes))) "/".toList "f".toList
      [7, 8, 9] [[1]] Wrap.pln Form.buffer rfl (by decide)).1⟩

/-- C9 (implicit): `writeChunk` with an offset beyond the current length
does not pad: `subarray(0, offset)` clamps to the existing buffer, so the
result is the existing content followed by the chunk, and the returned
total is `N + len c`, not `offset + len c`. -/
theorem claim_c9_writeChunk_no_padding
    (st : Store) (root f : Str) (content : Bytes) (chunks : List Bytes)
    (offset : Nat) (w : Wrap) (fm : Form)
    (h : st.files (fullPath root f) = some content)
    (hoff : content.length < offset) :
    writeChunk w fm st root f chunks offset =
      Except.ok (st.put (fullPath root f) (content ++ chunks.flatten),
        content.length + chunks.flatten.length) := by
  simp [writeChunk, h, List.take_of_length_le (le_of_lt hoff)]

/-- Witness for C9: content `[5]` of length 1 written at offset 10 yields
`[5] ++ [6]` and total 2, not 11. -/
theorem claim_c9_witness :
    (Store.mk (fun _ => some ([5] : Bytes))).files
        (fullPath "/".toList "f".toList) = some [5] ∧
    ([5] : Bytes).length < 10 ∧
    writeChunk Wrap.env Form.arrayBuffer (Store.mk (fun _ => some ([5] : Bytes)))
        "/".toList "f".toList [[6]] 10 =
      Except.ok ((Store.mk (fun _ => some ([5] : Bytes))).put
          (fullPath "/".toList "f".toList) [5, 6], 2) :=
  ⟨rfl, by decide,
    claim_c9_writeChunk_no_padding (Store.mk (fun _ => some ([5] : Bytes)))
      "/".toList "f".toList [5] [[6]] 10 Wrap.env Form.arrayBuffer rfl (by decide)⟩

/-- C4: `createChunkedUpload` writes a zero-length object at the path and
returns the context unchanged; a faithful backend's `stat` immediately
afterwards reports size 0 (whatever the envelope choice and lastmod). -/
theorem claim_c4_createChunkedUpload {Ctx : Type} (st : Store) (root f : Str)
    (ctx : Ctx) (w : Wrap) (lm : Option Nat) (now : Nat) :
    (createChunkedUpload st root f ctx).2 = ctx ∧
    ((createChunkedUpload st root f ctx).1).files (fullPath root f) = some [] ∧
    statOfStore (createChunkedUpload st root f ctx).1 w lm now (fullPath root f) =
      some ⟨0, lm.getD now⟩ := by
  refine ⟨rfl, by simp [createChunkedUpload], ?_⟩
  cases w <;> cases lm <;>
    simp [createChunkedUpload, statOfStore, statResult, wrapWith, unwrap]

/-- C5: `exists` returns `true` exactly when the backend `stat` call on the
normalized path succeeds, and returns `false` (it never throws) for every
failure of that call — not-found, network, or permission alike. -/
theorem claim_c5_exists_boolean
    (statCall : Str → Except BackendError (Response StatPayload))
    (root f : Str) :
    (existsImpl statCall root f = true ↔
      ∃ r, statCall (fullPath root f) = Except.ok r) ∧
    (∀ e : BackendError, statCall (fullPath root f) = Except.error e →
      existsImpl statCall root f = false) := by
  constructor
  · constructor
    · intro h
      unfold existsImpl at h
      cases hc : statCall (fullPath root f) with
      | ok r => exact ⟨r, rfl⟩
      | error e =>
          rw [hc] at h
          simp at h
    · rintro ⟨r, hr⟩
      unfold existsImpl
      rw [hr]
  · intro e he
    unfold existsImpl
    rw [he]

/-- Witness for C5: a backend whose stat always fails with a network error
makes `exists` return `false`. -/
theorem claim_c5_witness :
    existsImpl (fun _ => Except.error BackendError.network) [] [] = false :=
  (claim_c5_exists_boolean (fun _ => Except.error BackendError.network) [] []).2
    BackendError.network rfl

/-- C6: `read` with `range = {start, end}` issues a read-stream request
whose Range header is exactly `bytes=start-end`; with `end` absent it is
exactly `bytes=start-`; with no range option no Range header is sent. -/
theorem claim_c6_read_range_header (root f : Str) (s e : Nat) :
    read root f (some ⟨s, some e⟩) =
      ReadRequest.withRangeHeader (fullPath root f)
        (("bytes=" ++ Nat.repr s ++ "-" ++ Nat.repr e).toList) ∧
    read root f (some ⟨s, none⟩) =
      ReadRequest.withRangeHeader (fullPath root f)
        (("bytes=" ++ Nat.repr s ++ "-").toList) ∧
    read root f none = ReadRequest.plain (fullPath root f) := by
  refine ⟨?_, ?_, rfl⟩ <;> simp [read, natChars, String.toList]

/-- C7: `stat` tolerantly unwraps an envelope response and returns
`{size, modified}` where a missing size defaults to 0 and a missing
lastmod defaults to the current time; missing fields never error. -/
theorem claim_c7_stat_defaults (root f : Str) (now : Nat) (w : Wrap)
    (sz lm : Option Nat) (backend : Str → Response StatPayload)
    (hb : backend (fullPath root f) = wrapWith w ⟨sz, lm⟩) :
    statOp root f now backend = ⟨sz.getD 0, lm.getD now⟩ := by
  rw [statOp, hb]
  cases w <;> cases lm <;> simp [statResult, unwrap, wrapWith]

/-- Witness for C7: an enveloped response omitting both fields yields
size 0 and the current time. -/
theorem claim_c7_witness :
    statOp [] [] 5 (fun _ => wrapWith Wrap.env ⟨none, none⟩) =
      FileMetadata.mk 0 5 :=
  claim_c7_stat_defaults [] [] 5 Wrap.env none none
    (fun _ => wrapWith Wrap.env ⟨none, none⟩) rfl

/-- C8: `list` over a (possibly enveloped) backend listing yields exactly
the file-type entries, each converted to a root-relative path, and no
directory entries: the yield equals the file entries mapped through the
path conversion. -/
theorem claim_c8_list_files_only (cwd root : Str) (w : Wrap)
    (entries : List DirEntry) :
    list cwd root (wrapWith w entries) =
      (entries.filter (fun e => e.type = EntryType.file)).map
        (fun e => denormalize cwd root e.filename) := by
  have key : ∀ l : List DirEntry,
      l.filterMap (fun item =>
        if item.type = EntryType.file then
          some (denormalize cwd root item.filename)
        else none) =
      (l.filter (fun e => e.type = EntryType.file)).map
        (fun e => denormalize cwd root e.filename) := by
    intro l
    induction l with
    | nil => rfl
    | cons e es ih =>
        by_cases he : e.type = EntryType.file
        · simp [List.filterMap_cons, List.filter_cons, he, ih]
        · simp [List.filterMap_cons, List.filter_cons, he, ih]
  simp only [list, unwrap_wrapWith]
  exact key entries

/-- C3 (amended): for every nonempty configured root, every working
directory, and every relative path of the form
`(k leading slashes) ++ clean segments joined by '/'` — i.e. every path
whose leading-slash-stripped form is a sequence of nonempty, dot-free,
slash-free segments — denormalizing the normalized path yields the path
again modulo leading-slash normalization.  (The original claim, which
required only the absence of `..` segments and allowed an empty root,
fails: see the counterexample.) -/
theorem claim_c3_roundtrip (cwd root : Str) (hroot : root ≠ []) (k : Nat)
    (psegs : List Str) (hclean : ∀ s ∈ psegs, cleanSeg s) :
    denormalize cwd root
        (fullPath root (List.replicate k '/' ++ joinSegs psegs)) =
      stripLeadingSlashes (List.replicate k '/' ++ joinSegs psegs) ∧
    stripLeadingSlashes (List.replicate k '/' ++ joinSegs psegs) =
      joinSegs psegs := by
  have hJ := joinSegs_head_ne_slash psegs hclean
  have h2 : stripLeadingSlashes (List.replicate k '/' ++ joinSegs psegs) =
      joinSegs psegs := by
    rw [stripLeadingSlashes_replicate, stripLeadingSlashes_of_head_ne _ hJ]
  refine ⟨?_, h2⟩
  unfold denormalize fullPath
  obtain ⟨j, hj⟩ := stripOneLeading_shape k (joinSegs psegs) hJ
  rw [hj, nodeRelative_fullPath cwd root hroot j psegs hclean,
    stripLeadingSlashes_of_head_ne _ hJ, h2]

/-- Witness for C3: root `"data"`, working directory `"/x"`, path
`"/a/b"` (one leading slash, clean segments `a`, `b`). -/
theorem claim_c3_witness :
    ("data".toList ≠ ([] : Str) ∧
      ∀ s ∈ (["a".toList, "b".toList] : List Str), cleanSeg s) ∧
    (denormalize "/x".toList "data".toList
        (fullPath "data".toList
          (List.replicate 1 '/' ++ joinSegs ["a".toList, "b".toList])) =
      stripLeadingSlashes
        (List.replicate 1 '/' ++ joinSegs ["a".toList, "b".toList]) ∧
    stripLeadingSlashes
        (List.replicate 1 '/' ++ joinSegs ["a".toList, "b".toList]) =
      joinSegs ["a".toList, "b".toList]) :=
  ⟨⟨by decide, by decide⟩,
    claim_c3_roundtrip "/x".toList "data".toList (by decide) 1
      ["a".toList, "b".toList] (by decide)⟩

/-- Counterexample to C3 as stated: (a) the path `"./a"` contains no `..`
segment, yet with root `"/data"` the round-trip returns `"a"`, which
differs from `"./a"` even after leading-slash normalization; (b) with the
configured root `""` (allowed, since only `null`/`undefined` default to
`"/"`), even the clean path `"a"` round-trips to `"../a"` when the working
directory is `"/x"`. -/
theorem claim_c3_counterexample :
    (['.', '.'] ∉ splitSlash "./a".toList ∧
      denormalize "/".toList "/data".toList
          (fullPath "/data".toList "./a".toList) = "a".toList ∧
      stripLeadingSlashes "./a".toList = "./a".toList ∧
      ("a".toList : Str) ≠ "./a".toList) ∧
    (['.', '.'] ∉ splitSlash "a".toList ∧
      denormalize "/x".toList "".toList (fullPath "".toList "a".toList) =
        "../a".toList ∧
      stripLeadingSlashes "a".toList = "a".toList ∧
      ("../a".toList : Str) ≠ "a".toList) := by
  decide

/-- C10: the TUS-capable driver (`src/index.ts`) and the plain driver
(`src/webdav.ts`) implement extensionally equal behaviour for every
operation of the shared base driver contract — `read`, `stat`, `exists`,
`move`, `copy`, `write`, `delete`, `list` — and for the path normalizer:
same results and same backend calls on all inputs and backend responses. -/
theorem claim_c10_variants_equivalent :
    (∀ root fp, fullPath root fp = WebDAVPlain.fullPath root fp) ∧
    (∀ root fp opts, read root fp opts = WebDAVPlain.read root fp opts) ∧
    (∀ root fp now backend,
      statOp root fp now backend = WebDAVPlain.statOp root fp now backend) ∧
    (∀ sc root fp, existsImpl sc root fp = WebDAVPlain.existsImpl sc root fp) ∧
    (∀ root src dest, move root src dest = WebDAVPlain.move root src dest) ∧
    (∀ root src dest, copy root src dest = WebDAVPlain.copy root src dest) ∧
    (∀ st root fp c, write st root fp c = WebDAVPlain.write st root fp c) ∧
    (∀ root fp, deletePath root fp = WebDAVPlain.deletePath root fp) ∧
    (∀ cwd root res, list cwd root res = WebDAVPlain.list cwd root res) := by
  refine ⟨?_, ?_, ?_, ?_, ?_, ?_, ?_, ?_, ?_⟩ <;> intros <;> rfl
